import Mathlib

/-
Verification of the keyframe interpolator described by the repository
src/GUI/Viewer/libQGLViewer/QGLViewer/keyFrameInterpolator.h (libQGLViewer
2.3.15 KeyFrameInterpolator).  The repository contains only the class
header: the inline member bodies (toggleInterpolation, invalidateValues,
interpolationIsStarted, the getters and setters) are embedded from that
header, and the out-of-line member bodies, which are not part of the
repository, are modelled from the specification as indicated on each
definition.  Times, positions and quaternion components are embedded as
rationals; the transcendental functions used by the spherical
interpolation formulas are abstracted as explicit function parameters.
-/

namespace QGL

/-- A 3D vector with rational components, embedding the Vec position type
used by the keyframes. -/
structure Vec where
  x : ℚ
  y : ℚ
  z : ℚ
deriving DecidableEq

def Vec.add (v w : Vec) : Vec := ⟨v.x + w.x, v.y + w.y, v.z + w.z⟩

def Vec.smul (c : ℚ) (v : Vec) : Vec := ⟨c * v.x, c * v.y, c * v.z⟩

def Vec.zero : Vec := ⟨0, 0, 0⟩

/-- A quaternion with rational components; w is the scalar part. -/
structure Quaternion where
  x : ℚ
  y : ℚ
  z : ℚ
  w : ℚ
deriving DecidableEq

def Quaternion.dot (p q : Quaternion) : ℚ :=
  p.x * q.x + p.y * q.y + p.z * q.z + p.w * q.w

def Quaternion.normSq (q : Quaternion) : ℚ := q.dot q

def Quaternion.neg (q : Quaternion) : Quaternion := ⟨-q.x, -q.y, -q.z, -q.w⟩

def Quaternion.scale (c : ℚ) (q : Quaternion) : Quaternion :=
  ⟨c * q.x, c * q.y, c * q.z, c * q.w⟩

def Quaternion.add (p q : Quaternion) : Quaternion :=
  ⟨p.x + q.x, p.y + q.y, p.z + q.z, p.w + q.w⟩

/-- Hamilton product. -/
def Quaternion.mul (p q : Quaternion) : Quaternion :=
  ⟨p.w * q.x + p.x * q.w + p.y * q.z - p.z * q.y,
   p.w * q.y + p.y * q.w + p.z * q.x - p.x * q.z,
   p.w * q.z + p.z * q.w + p.x * q.y - p.y * q.x,
   p.w * q.w - p.x * q.x - p.y * q.y - p.z * q.z⟩

/-- Conjugate; for unit quaternions this is the inverse. -/
def Quaternion.conj (q : Quaternion) : Quaternion := ⟨-q.x, -q.y, -q.z, q.w⟩

def Quaternion.ident : Quaternion := ⟨0, 0, 0, 1⟩

theorem Quaternion.dot_self (q : Quaternion) : q.dot q = q.normSq := rfl

theorem Quaternion.dot_neg_left (p q : Quaternion) :
    (Quaternion.neg p).dot q = -(p.dot q) := by
  cases p; cases q; simp [Quaternion.dot, Quaternion.neg]; ring

theorem Quaternion.neg_neg (q : Quaternion) : (Quaternion.neg q).neg = q := by
  cases q; simp [Quaternion.neg]

theorem Quaternion.dot_neg_right (p q : Quaternion) :
    p.dot (Quaternion.neg q) = -(p.dot q) := by
  cases p; cases q; simp [Quaternion.dot, Quaternion.neg]; ring

/-- Modelled from the spec: the transcendental operations (sin, arccos and
the quaternion log and exp maps) used by the spherical spline formulas of
section 4.2 and 4.4.  The repository contains only the interpolator header,
so these real-valued functions are abstracted as explicit parameters of the
evaluator. -/
structure Trig where
  sinF : ℚ → ℚ
  acosF : ℚ → ℚ
  logMap : Quaternion → Quaternion
  expMap : Quaternion → Quaternion

/-- The algebraic facts about the abstracted sine and arccosine that the
endpoint behaviour of spherical interpolation relies on: sine vanishes at
zero, and the sine of the arccosine of a cosine bounded away from one is
nonzero (in the spherical branch the interpolated orientations are at
least 0.01 apart in absolute cosine). -/
def Trig.Sane (T : Trig) : Prop :=
  T.sinF 0 = 0 ∧ ∀ c : ℚ, 1 / 100 ≤ 1 - |c| → T.sinF (T.acosF |c|) ≠ 0

/-- A concrete instantiation of the abstracted transcendental functions,
adequate for evaluating the model on concrete inputs. -/
def linTrig : Trig :=
  ⟨fun c => c, fun c => 1 - c, fun q => q, fun q => q⟩

theorem linTrig_sane : linTrig.Sane := by
  constructor
  · rfl
  · intro c h
    show (1 : ℚ) - |c| ≠ 0
    intro h0
    rw [h0] at h
    norm_num at h

/-- Modelled from the spec: the interpolation coefficients of spherical
linear interpolation (the quaternion code is not in the repository).  Close
orientations use the linear blend, others the spherical sine-ratio
coefficients. -/
def slerpCoeffs (T : Trig) (cosAngle u : ℚ) : ℚ × ℚ :=
  if 1 - |cosAngle| < 1 / 100 then (1 - u, u)
  else
    (T.sinF (T.acosF |cosAngle| * (1 - u)) / T.sinF (T.acosF |cosAngle|),
     T.sinF (T.acosF |cosAngle| * u) / T.sinF (T.acosF |cosAngle|))

/-- Modelled from the spec: spherical linear interpolation between two
quaternions, taking the shortest path (negating the first coefficient)
when flipping is allowed and the quaternions lie in opposite hemispheres. -/
def slerp (T : Trig) (a b : Quaternion) (u : ℚ) (allowFlip : Bool) : Quaternion :=
  let cs := slerpCoeffs T (Quaternion.dot a b) u
  let c1 := if allowFlip = true ∧ Quaternion.dot a b < 0 then -cs.1 else cs.1
  Quaternion.add (Quaternion.scale c1 a) (Quaternion.scale cs.2 b)

/-- Modelled from the spec: spherical cubic (squad) interpolation between
unit quaternions using tangent quaternions (section 4.4 and glossary). -/
def squad (T : Trig) (a tgA tgB b : Quaternion) (u : ℚ) : Quaternion :=
  slerp T (slerp T a b u true) (slerp T tgA tgB u false) (2 * u * (1 - u)) false

theorem slerpCoeffs_zero (T : Trig) (hT : T.Sane) (c : ℚ) :
    slerpCoeffs T c 0 = (1, 0) := by
  unfold slerpCoeffs
  split_ifs with h
  · norm_num
  · have hs : T.sinF (T.acosF |c|) ≠ 0 := hT.2 c (le_of_not_lt h)
    have h1 : (1 : ℚ) - 0 = 1 := by norm_num
    rw [h1, mul_one, mul_zero, hT.1, div_self hs, zero_div]

theorem slerpCoeffs_one (T : Trig) (hT : T.Sane) (c : ℚ) :
    slerpCoeffs T c 1 = (0, 1) := by
  unfold slerpCoeffs
  split_ifs with h
  · norm_num
  · have hs : T.sinF (T.acosF |c|) ≠ 0 := hT.2 c (le_of_not_lt h)
    have h1 : (1 : ℚ) - 1 = 0 := by norm_num
    rw [h1, mul_one, mul_zero, hT.1, div_self hs, zero_div]

theorem scale_one_add_scale_zero (a b : Quaternion) :
    Quaternion.add (Quaternion.scale 1 a) (Quaternion.scale 0 b) = a := by
  cases a; cases b; simp [Quaternion.add, Quaternion.scale]

theorem scale_zero_add_scale_one (a b : Quaternion) :
    Quaternion.add (Quaternion.scale 0 a) (Quaternion.scale 1 b) = b := by
  cases a; cases b; simp [Quaternion.add, Quaternion.scale]

theorem scale_negone_add_scale_zero (a b : Quaternion) :
    Quaternion.add (Quaternion.scale (-1) a) (Quaternion.scale 0 b) =
      Quaternion.neg a := by
  cases a; cases b; simp [Quaternion.add, Quaternion.scale, Quaternion.neg]

theorem slerp_zero_noflip (T : Trig) (hT : T.Sane) (a b : Quaternion) :
    slerp T a b 0 false = a := by
  unfold slerp
  rw [slerpCoeffs_zero T hT]
  simp only [Bool.false_eq_true, false_and, if_false]
  exact scale_one_add_scale_zero a b

theorem slerp_zero_flip (T : Trig) (hT : T.Sane) (a b : Quaternion) :
    slerp T a b 0 true = a ∨ slerp T a b 0 true = Quaternion.neg a := by
  unfold slerp
  rw [slerpCoeffs_zero T hT]
  by_cases h : Quaternion.dot a b < 0
  · right
    simp only [true_and, h, if_true]
    exact scale_negone_add_scale_zero a b
  · left
    simp only [true_and, h, if_false]
    exact scale_one_add_scale_zero a b

theorem slerp_one (T : Trig) (hT : T.Sane) (a b : Quaternion) (flip : Bool) :
    slerp T a b 1 flip = b := by
  unfold slerp
  rw [slerpCoeffs_one T hT]
  split_ifs
  · show Quaternion.add (Quaternion.scale (-(0 : ℚ)) a) (Quaternion.scale 1 b) = b
    rw [show (-(0 : ℚ)) = 0 by norm_num]
    exact scale_zero_add_scale_one a b
  · exact scale_zero_add_scale_one a b

theorem squad_zero (T : Trig) (hT : T.Sane) (a tgA tgB b : Quaternion) :
    squad T a tgA tgB b 0 = a ∨ squad T a tgA tgB b 0 = Quaternion.neg a := by
  unfold squad
  rw [show (2 * (0 : ℚ) * (1 - 0)) = 0 by norm_num,
    slerp_zero_noflip T hT]
  exact slerp_zero_flip T hT a b

theorem squad_one (T : Trig) (hT : T.Sane) (a tgA tgB b : Quaternion) :
    squad T a tgA tgB b 1 = b := by
  unfold squad
  rw [show (2 * (1 : ℚ) * (1 - 1)) = 0 by norm_num,
    slerp_zero_noflip T hT, slerp_one T hT]

/-- The pose of a Frame as far as the interpolator core needs it: a
position and an orientation (section 6, target transform collaborator). -/
structure Pose where
  pos : Vec
  ori : Quaternion
deriving DecidableEq

/-- The internal keyframe record of KeyFrameInterpolator (header lines
310-330): a time, a position, an orientation and the two derived
tangents. -/
structure KeyFrame where
  time : ℚ
  p : Vec
  q : Quaternion
  tgP : Vec
  tgQ : Quaternion
deriving DecidableEq

/-- Modelled from the spec: KeyFrame::flipOrientationIfNeeded (declared at
header line 323, body not in the repository) — if the orientation has
negative dot product with its predecessor's, negate it in place
(section 4.2). -/
def flipOrientationIfNeeded (prev : Quaternion) (kf : KeyFrame) : KeyFrame :=
  if Quaternion.dot prev kf.q < 0 then { kf with q := kf.q.neg } else kf

/-- Sign correction applied sequentially front-to-back over the tail of the
list, with the given predecessor orientation. -/
def signCorrectFrom (prev : Quaternion) : List KeyFrame → List KeyFrame
  | [] => []
  | kf :: rest =>
    let kf' := flipOrientationIfNeeded prev kf
    kf' :: signCorrectFrom kf'.q rest

/-- Modelled from the spec: the front-to-back orientation sign correction
of section 4.2 — each keyframe's orientation is flipped when its dot
product with the (already corrected) predecessor is negative.  The first
keyframe is its own predecessor, hence never flipped. -/
def signCorrect : List KeyFrame → List KeyFrame
  | [] => []
  | kf :: rest => kf :: signCorrectFrom kf.q rest

/-- Modelled from the spec: the squad tangent quaternion formula of
section 4.2, exp(-1/4 (log(q⁻¹ qnext) + log(q⁻¹ qprev))) q, with the
inverse of a unit quaternion embedded as its conjugate. -/
def squadTangent (T : Trig) (qprev q qnext : Quaternion) : Quaternion :=
  Quaternion.mul
    (T.expMap (Quaternion.scale (-(1 / 4))
      (Quaternion.add (T.logMap (Quaternion.mul q.conj qnext))
        (T.logMap (Quaternion.mul q.conj qprev)))))
    q

/-- Modelled from the spec: KeyFrame::computeTangent (declared at header
line 324, body not in the repository) — the Catmull-Rom position tangent
0.5 (next - prev) and the squad orientation tangent (section 4.2). -/
def computeTangent (T : Trig) (prev kf next : KeyFrame) : KeyFrame :=
  { kf with
    tgP := Vec.smul (1 / 2) (Vec.add next.p (Vec.smul (-1) prev.p)),
    tgQ := squadTangent T prev.q kf.q next.q }

/-- Tangent computation over the tail of the list with the given
predecessor keyframe; the last keyframe uses itself as its degenerate
next neighbor (section 4.2: one-sided tangent, degenerate neighbor =
self). -/
def computeTangentsFrom (T : Trig) (prev : KeyFrame) :
    List KeyFrame → List KeyFrame
  | [] => []
  | [kf] => [computeTangent T prev kf kf]
  | kf :: next :: rest =>
    computeTangent T prev kf next :: computeTangentsFrom T kf (next :: rest)

/-- Modelled from the spec: per-keyframe tangent computation over the
whole list; the first keyframe uses itself as its degenerate previous
neighbor. -/
def computeTangents (T : Trig) : List KeyFrame → List KeyFrame
  | [] => []
  | kf :: rest => computeTangentsFrom T kf (kf :: rest)

/-- Modelled from the spec: updateModifiedFrameValues (declared at header
line 305, body not in the repository) — recompute the derived spline data:
first the front-to-back orientation sign correction, then the tangents of
every keyframe (section 4.2). -/
def updateModifiedFrameValues (T : Trig) (kfs : List KeyFrame) :
    List KeyFrame :=
  computeTangents T (signCorrect kfs)

/-- Modelled from the spec: the segment locator of section 4.3 — scan the
sorted keyframe list for the first consecutive pair whose second time is
at or past the query time; before the first segment or past the last one
the nearest boundary segment is used.  Returns none when fewer than two
keyframes exist (InsufficientKeyframes). -/
def segPair (t : ℚ) : List KeyFrame → Option (KeyFrame × KeyFrame)
  | [] => none
  | [_] => none
  | [a, b] => some (a, b)
  | a :: b :: c :: rest =>
    if t ≤ b.time then some (a, b) else segPair t (b :: c :: rest)

/-- Modelled from the spec: cubic Hermite interpolation of section 4.4 in
the Hermite basis, with the tangent terms scaled by the segment
duration. -/
def hermite (pa pb ta tb : Vec) (dt u : ℚ) : Vec :=
  Vec.add
    (Vec.add (Vec.smul (2 * u ^ 3 - 3 * u ^ 2 + 1) pa)
      (Vec.smul (dt * (u ^ 3 - 2 * u ^ 2 + u)) ta))
    (Vec.add (Vec.smul (-2 * u ^ 3 + 3 * u ^ 2) pb)
      (Vec.smul (dt * (u ^ 3 - u ^ 2)) tb))

/-- Modelled from the spec: the evaluator of section 4.4 on one segment —
the local parameter u = (t - a.time) / (b.time - a.time), cubic Hermite
for the position and squad for the orientation. -/
def evalSegment (T : Trig) (a b : KeyFrame) (t : ℚ) : Pose :=
  { pos := hermite a.p b.p a.tgP b.tgP (b.time - a.time)
      ((t - a.time) / (b.time - a.time)),
    ori := squad T a.q a.tgQ b.tgQ b.q ((t - a.time) / (b.time - a.time)) }

/-- Modelled from the spec: one full evaluation at a query time —
recompute the derived spline data, locate the segment and evaluate it;
none when fewer than two keyframes exist. -/
def evalPose (T : Trig) (kfs : List KeyFrame) (t : ℚ) : Option Pose :=
  match segPair t (updateModifiedFrameValues T kfs) with
  | none => none
  | some (a, b) => some (evalSegment T a b t)

theorem hermite_zero (pa pb ta tb : Vec) (dt : ℚ) :
    hermite pa pb ta tb dt 0 = pa := by
  cases pa; cases pb; cases ta; cases tb
  simp only [hermite, Vec.add, Vec.smul, Vec.mk.injEq]
  norm_num

theorem hermite_one (pa pb ta tb : Vec) (dt : ℚ) :
    hermite pa pb ta tb dt 1 = pb := by
  cases pa; cases pb; cases ta; cases tb
  simp only [hermite, Vec.add, Vec.smul, Vec.mk.injEq]
  norm_num

theorem evalSegment_left (T : Trig) (hT : T.Sane) (a b : KeyFrame) (t : ℚ)
    (ht : t = a.time) :
    (evalSegment T a b t).pos = a.p ∧
      ((evalSegment T a b t).ori = a.q ∨
        (evalSegment T a b t).ori = Quaternion.neg a.q) := by
  have hu : (t - a.time) / (b.time - a.time) = 0 := by
    rw [ht, sub_self, zero_div]
  unfold evalSegment
  rw [hu]
  exact ⟨hermite_zero _ _ _ _ _, squad_zero T hT _ _ _ _⟩

theorem evalSegment_right (T : Trig) (hT : T.Sane) (a b : KeyFrame) (t : ℚ)
    (ht : t = b.time) (hab : a.time < b.time) :
    (evalSegment T a b t).pos = b.p ∧ (evalSegment T a b t).ori = b.q := by
  have hu : (t - a.time) / (b.time - a.time) = 1 := by
    rw [ht]
    exact div_self (ne_of_gt (sub_pos.mpr hab))
  unfold evalSegment
  rw [hu]
  exact ⟨hermite_one _ _ _ _ _, squad_one T hT _ _ _ _⟩

/-- The relation between an original keyframe and its recomputed version:
time and position are preserved and the orientation is preserved up to a
sign flip. -/
def KFRel (a b : KeyFrame) : Prop :=
  b.time = a.time ∧ b.p = a.p ∧ (b.q = a.q ∨ b.q = Quaternion.neg a.q)

theorem forall2_trans_kfrel {l m n : List KeyFrame}
    (h1 : List.Forall₂ KFRel l m) (h2 : List.Forall₂ KFRel m n) :
    List.Forall₂ KFRel l n := by
  induction h1 generalizing n with
  | nil =>
    cases h2
    exact List.Forall₂.nil
  | cons hab htl ih =>
    cases h2 with
    | cons hbc htl2 =>
      refine List.Forall₂.cons ?_ (ih htl2)
      obtain ⟨ht1, hp1, hq1⟩ := hab
      obtain ⟨ht2, hp2, hq2⟩ := hbc
      refine ⟨ht2.trans ht1, hp2.trans hp1, ?_⟩
      rcases hq1 with h1' | h1' <;> rcases hq2 with h2' | h2'
      · exact Or.inl (h2'.trans h1')
      · exact Or.inr (by rw [h2', h1'])
      · exact Or.inr (by rw [h2', h1'])
      · exact Or.inl (by rw [h2', h1', Quaternion.neg_neg])

theorem forall2_mem {R : KeyFrame → KeyFrame → Prop} {l m : List KeyFrame}
    (h : List.Forall₂ R l m) {a : KeyFrame} (ha : a ∈ l) :
    ∃ b ∈ m, R a b := by
  induction h with
  | nil => cases ha
  | cons hab htl ih =>
    rcases List.mem_cons.mp ha with rfl | ha'
    · exact ⟨_, List.mem_cons_self _ _, hab⟩
    · obtain ⟨b, hb, hr⟩ := ih ha'
      exact ⟨b, List.mem_cons_of_mem _ hb, hr⟩

theorem map_time_eq_of_forall2 {l m : List KeyFrame}
    (h : List.Forall₂ KFRel l m) :
    m.map KeyFrame.time = l.map KeyFrame.time := by
  induction h with
  | nil => rfl
  | cons hab htl ih => simp [ih, hab.1]

theorem flip_time_p (prev : Quaternion) (kf : KeyFrame) :
    (flipOrientationIfNeeded prev kf).time = kf.time ∧
      (flipOrientationIfNeeded prev kf).p = kf.p := by
  unfold flipOrientationIfNeeded
  split_ifs <;> exact ⟨rfl, rfl⟩

theorem flip_q (prev : Quaternion) (kf : KeyFrame) :
    (flipOrientationIfNeeded prev kf).q = kf.q ∨
      (flipOrientationIfNeeded prev kf).q = Quaternion.neg kf.q := by
  unfold flipOrientationIfNeeded
  split_ifs
  · exact Or.inr rfl
  · exact Or.inl rfl

theorem signCorrectFrom_forall2 (l : List KeyFrame) :
    ∀ prev : Quaternion, List.Forall₂ KFRel l (signCorrectFrom prev l) := by
  induction l with
  | nil => intro prev; exact List.Forall₂.nil
  | cons kf rest ih =>
    intro prev
    refine List.Forall₂.cons ?_ (ih _)
    exact ⟨(flip_time_p prev kf).1, (flip_time_p prev kf).2, flip_q prev kf⟩

theorem signCorrect_forall2 (l : List KeyFrame) :
    List.Forall₂ KFRel l (signCorrect l) := by
  cases l with
  | nil => exact List.Forall₂.nil
  | cons kf rest =>
    exact List.Forall₂.cons ⟨rfl, rfl, Or.inl rfl⟩ (signCorrectFrom_forall2 rest kf.q)

theorem computeTangent_fields (T : Trig) (prev kf next : KeyFrame) :
    (computeTangent T prev kf next).time = kf.time ∧
      (computeTangent T prev kf next).p = kf.p ∧
      (computeTangent T prev kf next).q = kf.q :=
  ⟨rfl, rfl, rfl⟩

theorem computeTangentsFrom_forall2 (T : Trig) (l : List KeyFrame) :
    ∀ prev : KeyFrame, List.Forall₂ KFRel l (computeTangentsFrom T prev l) := by
  induction l with
  | nil => intro prev; exact List.Forall₂.nil
  | cons kf rest ih =>
    intro prev
    cases rest with
    | nil =>
      exact List.Forall₂.cons ⟨rfl, rfl, Or.inl rfl⟩ List.Forall₂.nil
    | cons next rest' =>
      exact List.Forall₂.cons ⟨rfl, rfl, Or.inl rfl⟩ (ih kf)

theorem computeTangents_forall2 (T : Trig) (l : List KeyFrame) :
    List.Forall₂ KFRel l (computeTangents T l) := by
  cases l with
  | nil => exact List.Forall₂.nil
  | cons kf rest => exact computeTangentsFrom_forall2 T (kf :: rest) kf

theorem updateModifiedFrameValues_forall2 (T : Trig) (kfs : List KeyFrame) :
    List.Forall₂ KFRel kfs (updateModifiedFrameValues T kfs) :=
  forall2_trans_kfrel (signCorrect_forall2 kfs)
    (computeTangents_forall2 T (signCorrect kfs))

theorem updateModifiedFrameValues_map_time (T : Trig) (kfs : List KeyFrame) :
    (updateModifiedFrameValues T kfs).map KeyFrame.time =
      kfs.map KeyFrame.time :=
  map_time_eq_of_forall2 (updateModifiedFrameValues_forall2 T kfs)

theorem updateModifiedFrameValues_sorted (T : Trig) (kfs : List KeyFrame)
    (hs : List.Pairwise (fun a b => a.time < b.time) kfs) :
    List.Pairwise (fun a b => a.time < b.time)
      (updateModifiedFrameValues T kfs) := by
  have h1 : List.Pairwise (fun a b : ℚ => a < b) (kfs.map KeyFrame.time) :=
    (List.pairwise_map).mpr hs
  have h2 : List.Pairwise (fun a b : ℚ => a < b)
      ((updateModifiedFrameValues T kfs).map KeyFrame.time) := by
    rw [updateModifiedFrameValues_map_time]; exact h1
  exact (List.pairwise_map).mp h2

theorem segPair_mem (k : KeyFrame) :
    ∀ l : List KeyFrame, List.Pairwise (fun a b => a.time < b.time) l →
      2 ≤ l.length → k ∈ l →
      ∃ a b, segPair k.time l = some (a, b) ∧ a.time < b.time ∧
        (a = k ∨ b = k) := by
  intro l
  induction l with
  | nil => intro _ hlen; simp at hlen
  | cons x tail ih =>
    intro hs hlen hk
    cases tail with
    | nil => simp at hlen
    | cons y rest =>
      have hxy : x.time < y.time :=
        (List.pairwise_cons.mp hs).1 y (List.mem_cons_self _ _)
      rcases List.mem_cons.mp hk with rfl | hk'
      · -- k is the head: the first segment is returned
        refine ⟨k, y, ?_, hxy, Or.inl rfl⟩
        cases rest with
        | nil => rfl
        | cons c rest' =>
          show (if k.time ≤ y.time then some (k, y)
              else segPair k.time (y :: c :: rest')) = some (k, y)
          rw [if_pos (le_of_lt hxy)]
      · rcases List.mem_cons.mp hk' with rfl | hk''
        · -- k is the second element
          refine ⟨x, k, ?_, hxy, Or.inr rfl⟩
          cases rest with
          | nil => rfl
          | cons c rest' =>
            show (if k.time ≤ k.time then some (x, k)
                else segPair k.time (k :: c :: rest')) = some (x, k)
            rw [if_pos (le_refl k.time)]
        · -- k lies strictly past the second element
          cases rest with
          | nil => cases hk''
          | cons c rest' =>
            have hyk : y.time < k.time :=
              (List.pairwise_cons.mp (List.pairwise_cons.mp hs).2).1 k hk''
            have hcond : ¬ k.time ≤ y.time := not_le.mpr hyk
            obtain ⟨a, b, hseg, hab, hor⟩ :=
              ih (List.pairwise_cons.mp hs).2 (by simp) hk'
            refine ⟨a, b, ?_, hab, hor⟩
            show (if k.time ≤ y.time then some (x, y)
                else segPair k.time (y :: c :: rest')) = some (a, b)
            rw [if_neg hcond]
            exact hseg

theorem map_q_computeTangentsFrom (T : Trig) (l : List KeyFrame) :
    ∀ prev : KeyFrame,
      (computeTangentsFrom T prev l).map KeyFrame.q = l.map KeyFrame.q := by
  induction l with
  | nil => intro prev; rfl
  | cons kf rest ih =>
    intro prev
    cases rest with
    | nil => rfl
    | cons next rest' =>
      show KeyFrame.q (computeTangent T prev kf next) ::
          (computeTangentsFrom T kf (next :: rest')).map KeyFrame.q =
          kf.q :: (next :: rest').map KeyFrame.q
      rw [ih kf]
      rfl

theorem map_q_computeTangents (T : Trig) (l : List KeyFrame) :
    (computeTangents T l).map KeyFrame.q = l.map KeyFrame.q := by
  cases l with
  | nil => rfl
  | cons kf rest => exact map_q_computeTangentsFrom T (kf :: rest) kf

theorem signCorrectFrom_chain (l : List KeyFrame) :
    ∀ prev : Quaternion,
      List.Chain (fun p q : Quaternion => 0 ≤ Quaternion.dot p q) prev
        ((signCorrectFrom prev l).map KeyFrame.q) := by
  induction l with
  | nil => intro prev; exact List.Chain.nil
  | cons kf rest ih =>
    intro prev
    show List.Chain _ prev ((flipOrientationIfNeeded prev kf).q ::
      (signCorrectFrom (flipOrientationIfNeeded prev kf).q rest).map KeyFrame.q)
    refine List.Chain.cons ?_ (ih _)
    unfold flipOrientationIfNeeded
    split_ifs with h
    · show 0 ≤ Quaternion.dot prev kf.q.neg
      rw [Quaternion.dot_neg_right]
      linarith
    · exact le_of_not_lt h

theorem signCorrect_chain (l : List KeyFrame) :
    List.Chain' (fun p q : Quaternion => 0 ≤ Quaternion.dot p q)
      ((signCorrect l).map KeyFrame.q) := by
  cases l with
  | nil => exact trivial
  | cons kf rest =>
    show List.Chain (fun p q : Quaternion => 0 ≤ Quaternion.dot p q) kf.q
      ((signCorrectFrom kf.q rest).map KeyFrame.q)
    exact signCorrectFrom_chain rest kf.q

theorem pm_trans {x y z : Quaternion} (h1 : x = y ∨ x = Quaternion.neg y)
    (h2 : y = z ∨ y = Quaternion.neg z) :
    x = z ∨ x = Quaternion.neg z := by
  rcases h1 with h1 | h1 <;> rcases h2 with h2 | h2
  · exact Or.inl (h1.trans h2)
  · exact Or.inr (by rw [h1, h2])
  · exact Or.inr (by rw [h1, h2])
  · exact Or.inl (by rw [h1, h2, Quaternion.neg_neg])

theorem dot_pm {q' k : Quaternion} (h : q' = k ∨ q' = Quaternion.neg k)
    (hk : Quaternion.normSq k = 1) :
    Quaternion.dot q' k = 1 ∨ Quaternion.dot q' k = -1 := by
  rcases h with rfl | rfl
  · exact Or.inl (by rw [Quaternion.dot_self, hk])
  · right
    rw [Quaternion.dot_neg_left, Quaternion.dot_self, hk]

/-- C4: after tangent recomputation every pair of consecutive stored
orientations has non-negative dot product, and each stored orientation is
the original one possibly negated (the front-to-back sign correction of
section 4.2). -/
theorem C4_sign_flip_invariant (T : Trig) (kfs : List KeyFrame) :
    List.Chain' (fun p q : Quaternion => 0 ≤ Quaternion.dot p q)
      ((updateModifiedFrameValues T kfs).map KeyFrame.q) ∧
    List.Forall₂ (fun a b => b.q = a.q ∨ b.q = Quaternion.neg a.q) kfs
      (updateModifiedFrameValues T kfs) := by
  constructor
  · show List.Chain' _ ((computeTangents T (signCorrect kfs)).map KeyFrame.q)
    rw [map_q_computeTangents]
    exact signCorrect_chain kfs
  · exact (updateModifiedFrameValues_forall2 T kfs).imp (fun a b h => h.2.2)

/-- C1: for a list of at least two keyframes with strictly increasing
times and unit orientations, evaluating at a keyframe's own time yields
exactly that keyframe's position, and an orientation whose dot product
with that keyframe's orientation is plus or minus one (quaternion double
cover). -/
theorem C1_eval_at_keyframe_time (T : Trig) (hT : T.Sane)
    (kfs : List KeyFrame) (hlen : 2 ≤ kfs.length)
    (hsorted : List.Pairwise (fun a b => a.time < b.time) kfs)
    (hunit : ∀ kf ∈ kfs, Quaternion.normSq kf.q = 1)
    (k : KeyFrame) (hk : k ∈ kfs) :
    ∃ pose, evalPose T kfs k.time = some pose ∧ pose.pos = k.p ∧
      (Quaternion.dot pose.ori k.q = 1 ∨ Quaternion.dot pose.ori k.q = -1) := by
  have hf2 := updateModifiedFrameValues_forall2 T kfs
  obtain ⟨k', hk'mem, hrel⟩ := forall2_mem hf2 hk
  have hlen' : 2 ≤ (updateModifiedFrameValues T kfs).length := by
    rw [← List.Forall₂.length_eq hf2]; exact hlen
  have hsorted' := updateModifiedFrameValues_sorted T kfs hsorted
  obtain ⟨a, b, hseg, hab, hor⟩ := segPair_mem k' _ hsorted' hlen' hk'mem
  obtain ⟨htime, hp, hq⟩ := hrel
  rw [htime] at hseg
  have hev : evalPose T kfs k.time = some (evalSegment T a b k.time) := by
    unfold evalPose
    rw [hseg]
  refine ⟨evalSegment T a b k.time, hev, ?_⟩
  have hknorm : Quaternion.normSq k.q = 1 := hunit k hk
  rcases hor with rfl | rfl
  · -- the located segment starts at the (recomputed) keyframe
    have ht : k.time = a.time := htime.symm
    obtain ⟨hpos, hori⟩ := evalSegment_left T hT a b k.time ht
    refine ⟨by rw [hpos, hp], ?_⟩
    exact dot_pm (pm_trans hori hq) hknorm
  · -- the located segment ends at the (recomputed) keyframe
    have ht : k.time = b.time := htime.symm
    obtain ⟨hpos, hori⟩ := evalSegment_right T hT a b k.time ht hab
    refine ⟨by rw [hpos, hp], ?_⟩
    exact dot_pm (pm_trans (Or.inl hori) hq) hknorm

/-- The notifications of the interpolator (header lines 155 and 162): the
frame was interpolated, or the interpolation reached an endpoint.  The
signal-slot broadcast is embedded as a returned event list, as section 9
of the spec prescribes for the reimplementation. -/
inductive Event where
  | interpolated
  | endReached
deriving DecidableEq

/-- The error kinds of section 7. -/
inductive EvalError where
  | InsufficientKeyframes
  | OutOfRange
  | EmptyPath
deriving DecidableEq

/-- The state of a KeyFrameInterpolator, embedding the data members of the
header (lines 333-369): the keyframe list, the driven frame's pose, the
timer period, the interpolation time, speed and started flag, the loop and
closed-path flags and the cache validity flags.  The associated frame is
embedded by its pose, which is all the core reads and writes of it. -/
structure Interpolator where
  keyFrames : List KeyFrame
  framePose : Pose
  period : ℤ
  interpolationTime : ℚ
  interpolationSpeed : ℚ
  interpolationStarted : Bool
  closedPath : Bool
  loopInterpolation : Bool
  pathIsValid : Bool
  valuesAreValid : Bool
  currentFrameValid : Bool
  splineCacheIsValid : Bool
deriving DecidableEq

/-- First keyframe time of a list, 0 when empty (sentinel choice of
section 4.1). -/
def firstTimeL : List KeyFrame → ℚ
  | [] => 0
  | kf :: _ => kf.time

/-- Last keyframe time of a list, 0 when empty. -/
def lastTimeL : List KeyFrame → ℚ
  | [] => 0
  | [kf] => kf.time
  | _ :: kf :: rest => lastTimeL (kf :: rest)

def Interpolator.firstTime (s : Interpolator) : ℚ := firstTimeL s.keyFrames

def Interpolator.lastTime (s : Interpolator) : ℚ := lastTimeL s.keyFrames

/-- duration() = lastTime() - firstTime((), 0 when fewer than 2 keyframes
(section 4.1). -/
def Interpolator.duration (s : Interpolator) : ℚ := s.lastTime - s.firstTime

/-- numberOfKeyFrames, embedded from the header (line 197). -/
def Interpolator.numberOfKeyFrames (s : Interpolator) : ℕ :=
  s.keyFrames.length

/-- invalidateValues, embedded from the header (line 296): clears the
tangent values, the drawn path and the spline coefficient caches. -/
def invalidateValues (s : Interpolator) : Interpolator :=
  { s with
    valuesAreValid := false
    pathIsValid := false
    splineCacheIsValid := false }

/-- Modelled from the spec: addKeyFrame (declared at header lines 167-171,
bodies not in the repository) — appends a keyframe with the given time,
defaulting to lastTime() + 1.0, or 0.0 on an empty list; invalidates the
tangent cache, the path cache and the segment-locator window
(section 4.1).  The appended keyframe's tangents are placeholders until
the next recomputation. -/
def addKeyFrame (s : Interpolator) (pose : Pose) (t? : Option ℚ) :
    Interpolator :=
  let t := t?.getD (if s.keyFrames.isEmpty then 0 else lastTimeL s.keyFrames + 1)
  let kf : KeyFrame := ⟨t, pose.pos, pose.ori, Vec.zero, Quaternion.ident⟩
  { invalidateValues s with
    keyFrames := s.keyFrames ++ [kf]
    currentFrameValid := false }

/-- Modelled from the spec: deletePath (declared at header line 173, body
not in the repository) — clears the keyframe sequence, resets all caches
and resets the playback time to the now-undefined first time, here the
empty-list sentinel 0 (section 4.1 removeAll). -/
def deletePath (s : Interpolator) : Interpolator :=
  { s with
    keyFrames := []
    interpolationTime := 0
    valuesAreValid := false
    pathIsValid := false
    currentFrameValid := false
    splineCacheIsValid := false }

/-- Modelled from the spec: stopInterpolation (declared at header line
274, body not in the repository) — sets started to false, preserving the
current time (section 4.5). -/
def stopInterpolation (s : Interpolator) : Interpolator :=
  { s with interpolationStarted := false }

/-- Modelled from the spec: startInterpolation (declared at header line
273, body not in the repository) — sets started to true, overriding the
period when one is supplied (section 4.5). -/
def startInterpolation (s : Interpolator) (po : Option ℤ) : Interpolator :=
  { s with
    interpolationStarted := true
    period := po.getD s.period }

/-- toggleInterpolation, embedded from the header (line 277): calls
stopInterpolation or startInterpolation depending on
interpolationIsStarted. -/
def toggleInterpolation (s : Interpolator) : Interpolator :=
  if s.interpolationStarted then stopInterpolation s
  else startInterpolation s none

/-- Modelled from the spec: interpolateAtTime (declared at header line
278, body not in the repository) — one-shot evaluation at the given time
applied to the driven frame.  Per the header documentation of
interpolationTime (lines 206-210), the interpolation time can be set with
interpolateAtTime, so the time is stored; with fewer than two keyframes
the evaluation fails with InsufficientKeyframes and the frame is left
untouched (section 7). -/
def interpolateAtTime (T : Trig) (s : Interpolator) (t : ℚ) :
    Interpolator × Except EvalError Unit :=
  let s1 := { s with interpolationTime := t }
  match evalPose T s.keyFrames t with
  | none => (s1, Except.error EvalError.InsufficientKeyframes)
  | some pose =>
    ({ s1 with
      framePose := pose
      valuesAreValid := true
      splineCacheIsValid := true
      currentFrameValid := true },
      Except.ok ())

/-- The candidate interpolation time of the next tick:
interpolationTime() + interpolationPeriod()/1000 * interpolationSpeed()
(header lines 93-94, section 4.5 step). -/
def nextTickTime (s : Interpolator) : ℚ :=
  s.interpolationTime + (s.period : ℚ) / 1000 * s.interpolationSpeed

/-- Modelled from the spec: update (declared at header line 295, body not
in the repository) — one playback step.  With fewer than two keyframes the
step is a no-op (section 7).  Otherwise the time advances by
period/1000 * speed, the pose at the new time is written into the frame
and the interpolated event is emitted; when the new time crosses
lastTime() with positive speed (or firstTime() with negative speed) the
time wraps by the duration and playback continues when looping, else the
time is clamped to the boundary and playback stops; either way the
endReached event is also emitted (section 4.5).  A tick only occurs while
started, so the step is a no-op when not started. -/
def update (T : Trig) (s : Interpolator) : Interpolator × List Event :=
  if s.interpolationStarted = true then
    if s.keyFrames.length < 2 then (s, [])
    else
      if 0 < s.interpolationSpeed ∧ s.lastTime < nextTickTime s then
        if s.loopInterpolation = true then
          ({ s with
            interpolationTime := nextTickTime s - s.duration
            framePose := (evalPose T s.keyFrames (nextTickTime s)).getD
              s.framePose },
            [Event.interpolated, Event.endReached])
        else
          ({ s with
            interpolationTime := s.lastTime
            interpolationStarted := false
            framePose := (evalPose T s.keyFrames (nextTickTime s)).getD
              s.framePose },
            [Event.interpolated, Event.endReached])
      else if s.interpolationSpeed < 0 ∧ nextTickTime s < s.firstTime then
        if s.loopInterpolation = true then
          ({ s with
            interpolationTime := nextTickTime s + s.duration
            framePose := (evalPose T s.keyFrames (nextTickTime s)).getD
              s.framePose },
            [Event.interpolated, Event.endReached])
        else
          ({ s with
            interpolationTime := s.firstTime
            interpolationStarted := false
            framePose := (evalPose T s.keyFrames (nextTickTime s)).getD
              s.framePose },
            [Event.interpolated, Event.endReached])
      else
        ({ s with
          interpolationTime := nextTickTime s
          framePose := (evalPose T s.keyFrames (nextTickTime s)).getD
            s.framePose },
          [Event.interpolated])
  else (s, [])

/-- The state after n playback steps. -/
def run (T : Trig) (s : Interpolator) : ℕ → Interpolator
  | 0 => s
  | n + 1 => (update T (run T s n)).1

theorem head_le_lastTimeL (l : List KeyFrame) :
    ∀ x : KeyFrame, List.Pairwise (fun a b => a.time < b.time) (x :: l) →
      x.time ≤ lastTimeL (x :: l) := by
  induction l with
  | nil => intro x _; exact le_refl _
  | cons y rest ih =>
    intro x hs
    have hxy : x.time < y.time :=
      (List.pairwise_cons.mp hs).1 y (List.mem_cons_self _ _)
    have h2 : y.time ≤ lastTimeL (y :: rest) :=
      ih y (List.pairwise_cons.mp hs).2
    calc x.time ≤ y.time := le_of_lt hxy
      _ ≤ lastTimeL (y :: rest) := h2

theorem firstTimeL_le_lastTimeL (l : List KeyFrame)
    (hs : List.Pairwise (fun a b => a.time < b.time) l) :
    firstTimeL l ≤ lastTimeL l := by
  cases l with
  | nil => exact le_refl _
  | cons x rest => exact head_le_lastTimeL rest x hs

theorem lastTimeL_concat (kf : KeyFrame) (l : List KeyFrame) :
    lastTimeL (l ++ [kf]) = kf.time := by
  induction l with
  | nil => rfl
  | cons x l' ih =>
    cases l' with
    | nil => rfl
    | cons y l'' =>
      show lastTimeL (y :: (l'' ++ [kf])) = kf.time
      exact ih

theorem update_preserves (T : Trig) (s : Interpolator) :
    (update T s).1.keyFrames = s.keyFrames ∧
    (update T s).1.interpolationSpeed = s.interpolationSpeed ∧
    (update T s).1.period = s.period ∧
    (update T s).1.loopInterpolation = s.loopInterpolation := by
  unfold update
  split_ifs <;> exact ⟨rfl, rfl, rfl, rfl⟩

theorem update_step (T : Trig) (s : Interpolator)
    (hspeed : 0 < s.interpolationSpeed)
    (hper : 0 ≤ s.period)
    (hloop : s.loopInterpolation = false)
    (htime : s.interpolationTime ≤ s.lastTime) :
    s.interpolationTime ≤ (update T s).1.interpolationTime ∧
    (update T s).1.interpolationTime ≤ s.lastTime ∧
    (s.interpolationStarted = true ∧ 2 ≤ s.keyFrames.length ∧
        s.lastTime < nextTickTime s →
      (update T s).1.interpolationTime = s.lastTime ∧
      (update T s).1.interpolationStarted = false ∧
      (update T s).2.count Event.endReached = 1) := by
  have hstep : s.interpolationTime ≤ nextTickTime s := by
    unfold nextTickTime
    have hq : (0 : ℚ) ≤ (s.period : ℚ) := by exact_mod_cast hper
    nlinarith
  unfold update
  split_ifs with h1 h2 h3 h4 h5 h6
  · -- started, fewer than 2 keyframes: no-op
    exact ⟨le_refl _, htime, fun hc => absurd hc.2.1 (not_le.mpr h2)⟩
  · -- crossing with looping: excluded by hloop
    rw [hloop] at h4
    cases h4
  · -- crossing, not looping: clamp and stop
    exact ⟨htime, le_refl _, fun _ => ⟨rfl, rfl, rfl⟩⟩
  · -- reverse crossing: excluded by positive speed
    exact absurd h5.1 (not_lt.mpr (le_of_lt hspeed))
  · -- reverse crossing: excluded by positive speed
    exact absurd h5.1 (not_lt.mpr (le_of_lt hspeed))
  · -- normal advance
    have hle : nextTickTime s ≤ s.lastTime := by
      rcases not_and_or.mp h3 with h | h
      · exact absurd hspeed h
      · exact not_lt.mp h
    exact ⟨hstep, hle, fun hc => absurd hc.2.2 (not_lt.mpr hle)⟩
  · -- not started: no-op
    exact ⟨le_refl _, htime, fun hc => absurd hc.1 h1⟩

theorem run_invariant (T : Trig) (s0 : Interpolator)
    (hspeed : 0 < s0.interpolationSpeed)
    (hper : 0 ≤ s0.period)
    (hloop : s0.loopInterpolation = false)
    (htime0 : s0.interpolationTime ≤ s0.lastTime) :
    ∀ n, (run T s0 n).keyFrames = s0.keyFrames ∧
      (run T s0 n).interpolationSpeed = s0.interpolationSpeed ∧
      (run T s0 n).period = s0.period ∧
      (run T s0 n).loopInterpolation = false ∧
      (run T s0 n).interpolationTime ≤ s0.lastTime := by
  intro n
  induction n with
  | zero => exact ⟨rfl, rfl, rfl, hloop, htime0⟩
  | succ n ih =>
    obtain ⟨hkf, hsp, hpe, hlo, hti⟩ := ih
    have hlast : (run T s0 n).lastTime = s0.lastTime := by
      unfold Interpolator.lastTime
      rw [hkf]
    have hstep := update_step T (run T s0 n)
      (by rw [hsp]; exact hspeed) (by rw [hpe]; exact hper) hlo
      (by rw [hlast]; exact hti)
    have hpres := update_preserves T (run T s0 n)
    refine ⟨?_, ?_, ?_, ?_, ?_⟩
    · show (update T (run T s0 n)).1.keyFrames = s0.keyFrames
      rw [hpres.1, hkf]
    · show (update T (run T s0 n)).1.interpolationSpeed = s0.interpolationSpeed
      rw [hpres.2.1, hsp]
    · show (update T (run T s0 n)).1.period = s0.period
      rw [hpres.2.2.1, hpe]
    · show (update T (run T s0 n)).1.loopInterpolation = false
      rw [hpres.2.2.2, hlo]
    · show (update T (run T s0 n)).1.interpolationTime ≤ s0.lastTime
      rw [← hlast]
      exact hstep.2.1

/-- C2: a playback run started at firstTime() with positive speed and no
looping never decreases the interpolation time; the step whose candidate
time crosses lastTime() clamps the time to lastTime(), stops the
interpolation and emits endReached exactly once. -/
theorem C2_monotonic_playback (T : Trig) (s0 : Interpolator)
    (hstart : s0.interpolationTime = s0.firstTime)
    (hspeed : 0 < s0.interpolationSpeed)
    (hper : 0 ≤ s0.period)
    (hloop : s0.loopInterpolation = false)
    (hlen : 2 ≤ s0.keyFrames.length)
    (hsorted : List.Pairwise (fun a b => a.time < b.time) s0.keyFrames)
    (n : ℕ) :
    (run T s0 n).interpolationTime ≤ (run T s0 (n + 1)).interpolationTime ∧
    ((run T s0 n).interpolationStarted = true ∧
        s0.lastTime < nextTickTime (run T s0 n) →
      (run T s0 (n + 1)).interpolationTime = s0.lastTime ∧
      (run T s0 (n + 1)).interpolationStarted = false ∧
      (update T (run T s0 n)).2.count Event.endReached = 1) := by
  have htime0 : s0.interpolationTime ≤ s0.lastTime := by
    rw [hstart]
    exact firstTimeL_le_lastTimeL s0.keyFrames hsorted
  obtain ⟨hkf, hsp, hpe, hlo, hti⟩ :=
    run_invariant T s0 hspeed hper hloop htime0 n
  have hlast : (run T s0 n).lastTime = s0.lastTime := by
    unfold Interpolator.lastTime
    rw [hkf]
  have hstep := update_step T (run T s0 n)
    (by rw [hsp]; exact hspeed) (by rw [hpe]; exact hper) hlo
    (by rw [hlast]; exact hti)
  refine ⟨hstep.1, fun hc => ?_⟩
  have hlen' : 2 ≤ (run T s0 n).keyFrames.length := by
    rw [hkf]; exact hlen
  have hpost := hstep.2.2 ⟨hc.1, hlen', by rw [hlast]; exact hc.2⟩
  exact ⟨by rw [← hlast]; exact hpost.1, hpost.2.1, hpost.2.2⟩

/-- C3: with looping enabled and positive speed, the step whose candidate
time crosses lastTime() wraps the time to firstTime() plus the overshoot,
stays started and emits endReached exactly once; a non-crossing step emits
no endReached. -/
theorem C3_loop_wrap (T : Trig) (s : Interpolator)
    (hloop : s.loopInterpolation = true)
    (hspeed : 0 < s.interpolationSpeed)
    (hrun : s.interpolationStarted = true)
    (hlen : 2 ≤ s.keyFrames.length) :
    (s.lastTime < nextTickTime s →
      (update T s).1.interpolationTime =
        s.firstTime + (nextTickTime s - s.lastTime) ∧
      (update T s).1.interpolationStarted = true ∧
      (update T s).2.count Event.endReached = 1) ∧
    (¬ s.lastTime < nextTickTime s →
      (update T s).2.count Event.endReached = 0) := by
  constructor
  · intro hcross
    have hupd : update T s =
        ({ s with
          interpolationTime := nextTickTime s - s.duration
          framePose := (evalPose T s.keyFrames (nextTickTime s)).getD
            s.framePose },
          [Event.interpolated, Event.endReached]) := by
      unfold update
      rw [if_pos hrun, if_neg (Nat.not_lt.mpr hlen),
        if_pos ⟨hspeed, hcross⟩, if_pos hloop]
    rw [hupd]
    refine ⟨?_, hrun, rfl⟩
    show nextTickTime s - s.duration =
      s.firstTime + (nextTickTime s - s.lastTime)
    unfold Interpolator.duration
    ring
  · intro hcross
    have hupd : update T s =
        ({ s with
          interpolationTime := nextTickTime s
          framePose := (evalPose T s.keyFrames (nextTickTime s)).getD
            s.framePose },
          [Event.interpolated]) := by
      unfold update
      rw [if_pos hrun, if_neg (Nat.not_lt.mpr hlen),
        if_neg (fun hc => hcross hc.2),
        if_neg (fun hc => absurd hc.1 (not_lt.mpr (le_of_lt hspeed)))]
    rw [hupd]
    rfl

/-- C5: with fewer than two keyframes a playback step is a no-op — the
state (time, frame pose, everything) is unchanged and no event is
emitted. -/
theorem C5_insufficient_noop (T : Trig) (s : Interpolator)
    (hlen : s.keyFrames.length < 2) :
    update T s = (s, []) := by
  unfold update
  by_cases h1 : s.interpolationStarted = true
  · rw [if_pos h1, if_pos hlen]
  · rw [if_neg h1]

theorem interpolateAtTime_time (T : Trig) (s : Interpolator) (t : ℚ) :
    (interpolateAtTime T s t).1.interpolationTime = t := by
  rcases hev : evalPose T s.keyFrames t with _ | pose <;>
    simp [interpolateAtTime, hev]

/-- C6 (amended): interpolateAtTime sets the interpolation time to the
queried time — as the header documents at lines 206-210 — applies the
evaluated pose to the frame when at least two keyframes exist, and leaves
the playback parameters (speed, period, looping, started) and the
keyframe list unchanged. -/
theorem C6_evaluate_sets_time (T : Trig) (s : Interpolator) (t : ℚ) :
    (interpolateAtTime T s t).1.interpolationTime = t ∧
    (interpolateAtTime T s t).1.interpolationSpeed = s.interpolationSpeed ∧
    (interpolateAtTime T s t).1.period = s.period ∧
    (interpolateAtTime T s t).1.loopInterpolation = s.loopInterpolation ∧
    (interpolateAtTime T s t).1.interpolationStarted =
      s.interpolationStarted ∧
    (interpolateAtTime T s t).1.keyFrames = s.keyFrames ∧
    (interpolateAtTime T s t).1.framePose =
      (evalPose T s.keyFrames t).getD s.framePose := by
  rcases hev : evalPose T s.keyFrames t with _ | pose <;>
    simp [interpolateAtTime, hev]

/-- C7: an addKeyFrame call clears the tangent-values cache, the path
cache and the segment-locator window validity flag. -/
theorem C7_add_invalidates (s : Interpolator) (pose : Pose) (t? : Option ℚ) :
    (addKeyFrame s pose t?).valuesAreValid = false ∧
    (addKeyFrame s pose t?).pathIsValid = false ∧
    (addKeyFrame s pose t?).currentFrameValid = false :=
  ⟨rfl, rfl, rfl⟩

/-- C8: an addKeyFrame call with the time omitted appends a keyframe whose
time is 0 on an empty list, and the last keyframe's time plus 1
otherwise. -/
theorem C8_default_time (s : Interpolator) (pose : Pose) :
    (addKeyFrame s pose none).keyFrames =
      s.keyFrames ++ [⟨if s.keyFrames.isEmpty then 0 else s.lastTime + 1,
        pose.pos, pose.ori, Vec.zero, Quaternion.ident⟩] ∧
    (addKeyFrame s pose none).lastTime =
      (if s.keyFrames.isEmpty then 0 else s.lastTime + 1) := by
  constructor
  · rfl
  · show lastTimeL ((addKeyFrame s pose none).keyFrames) = _
    have h : (addKeyFrame s pose none).keyFrames =
        s.keyFrames ++ [⟨if s.keyFrames.isEmpty then 0 else s.lastTime + 1,
          pose.pos, pose.ori, Vec.zero, Quaternion.ident⟩] := rfl
    rw [h, lastTimeL_concat]

/-- C9: after deletePath the keyframe count is 0 and any subsequent
evaluation fails with InsufficientKeyframes, leaving the frame pose
untouched. -/
theorem C9_deletePath_empties (T : Trig) (s : Interpolator) (t : ℚ) :
    (deletePath s).numberOfKeyFrames = 0 ∧
    (interpolateAtTime T (deletePath s) t).2 =
      Except.error EvalError.InsufficientKeyframes ∧
    (interpolateAtTime T (deletePath s) t).1.framePose = s.framePose :=
  ⟨rfl, rfl, rfl⟩

/-- C10: toggleInterpolation inverts the started flag, stopping when
started and starting when stopped. -/
theorem C10_toggle_inverts (s : Interpolator) :
    (toggleInterpolation s).interpolationStarted =
      !s.interpolationStarted ∧
    toggleInterpolation s =
      (if s.interpolationStarted then stopInterpolation s
        else startInterpolation s none) := by
  refine ⟨?_, rfl⟩
  unfold toggleInterpolation stopInterpolation startInterpolation
  cases h : s.interpolationStarted <;> simp [h]

/-- A concrete keyframe at time 0 at the origin with identity
orientation. -/
def kfA : KeyFrame :=
  ⟨0, ⟨0, 0, 0⟩, Quaternion.ident, Vec.zero, Quaternion.ident⟩

/-- A concrete keyframe at time 1 at (10,0,0) with identity
orientation. -/
def kfB : KeyFrame :=
  ⟨1, ⟨10, 0, 0⟩, Quaternion.ident, Vec.zero, Quaternion.ident⟩

/-- A concrete interpolator state over the two-keyframe path, stopped at
time 0 with the default parameters. -/
def baseState : Interpolator :=
  { keyFrames := [kfA, kfB]
    framePose := ⟨Vec.zero, Quaternion.ident⟩
    period := 40
    interpolationTime := 0
    interpolationSpeed := 1
    interpolationStarted := false
    closedPath := false
    loopInterpolation := false
    pathIsValid := false
    valuesAreValid := false
    currentFrameValid := false
    splineCacheIsValid := false }

theorem C1_witness :
    linTrig.Sane ∧ 2 ≤ ([kfA, kfB] : List KeyFrame).length ∧
    (∃ pose, evalPose linTrig [kfA, kfB] kfA.time = some pose ∧
      pose.pos = kfA.p ∧
      (Quaternion.dot pose.ori kfA.q = 1 ∨
        Quaternion.dot pose.ori kfA.q = -1)) :=
  ⟨linTrig_sane, by decide,
    C1_eval_at_keyframe_time linTrig linTrig_sane [kfA, kfB] (by decide)
      (by norm_num [kfA, kfB, List.pairwise_cons])
      (by norm_num [kfA, kfB, Quaternion.normSq, Quaternion.dot,
        Quaternion.ident])
      kfA (List.mem_cons_self kfA [kfB])⟩

/-- The C2 scenario: running from time 0 with speed 1 and a period of 2000
milliseconds, so that the very first step overshoots lastTime() = 1. -/
def stateC2 : Interpolator :=
  { baseState with
    interpolationStarted := true
    period := 2000 }

theorem C2_witness :
    0 < stateC2.interpolationSpeed ∧
    ((run linTrig stateC2 0).interpolationTime ≤
        (run linTrig stateC2 1).interpolationTime ∧
      ((run linTrig stateC2 0).interpolationStarted = true ∧
          stateC2.lastTime < nextTickTime (run linTrig stateC2 0) →
        (run linTrig stateC2 1).interpolationTime = stateC2.lastTime ∧
        (run linTrig stateC2 1).interpolationStarted = false ∧
        (update linTrig (run linTrig stateC2 0)).2.count
          Event.endReached = 1)) :=
  ⟨by norm_num [stateC2, baseState],
    C2_monotonic_playback linTrig stateC2 rfl
      (by norm_num [stateC2, baseState]) (by decide) rfl (by decide)
      (by norm_num [stateC2, baseState, kfA, kfB, List.pairwise_cons]) 0⟩

/-- The C3 scenario: the C2 scenario with looping enabled. -/
def stateC3 : Interpolator :=
  { baseState with
    interpolationStarted := true
    period := 2000
    loopInterpolation := true }

theorem C3_witness :
    stateC3.loopInterpolation = true ∧
    ((stateC3.lastTime < nextTickTime stateC3 →
      (update linTrig stateC3).1.interpolationTime =
        stateC3.firstTime + (nextTickTime stateC3 - stateC3.lastTime) ∧
      (update linTrig stateC3).1.interpolationStarted = true ∧
      (update linTrig stateC3).2.count Event.endReached = 1) ∧
    (¬ stateC3.lastTime < nextTickTime stateC3 →
      (update linTrig stateC3).2.count Event.endReached = 0)) :=
  ⟨rfl,
    C3_loop_wrap linTrig stateC3 rfl (by norm_num [stateC3, baseState]) rfl
      (by decide)⟩

/-- The C5 scenario: playback running with a single keyframe. -/
def stateC5 : Interpolator :=
  { baseState with
    keyFrames := [kfA]
    interpolationStarted := true }

theorem C5_witness :
    stateC5.keyFrames.length < 2 ∧
    update linTrig stateC5 = (stateC5, []) :=
  ⟨by decide, C5_insufficient_noop linTrig stateC5 (by decide)⟩

/-- The C6 scenario: the interpolation time rests at 5 before a one-shot
evaluation at time 0. -/
def stateC6 : Interpolator :=
  { baseState with interpolationTime := 5 }

/-- C6 as claimed is false: interpolateAtTime does not leave the
interpolation time unchanged — evaluating at time 0 moves it from 5
to 0, as the header documentation of interpolationTime (lines 206-210)
states. -/
theorem C6_counterexample :
    ¬ ((interpolateAtTime linTrig stateC6 0).1.interpolationTime =
      stateC6.interpolationTime) := by
  rw [interpolateAtTime_time]
  norm_num [stateC6, baseState]

end QGL
